import Mathlib

/-!
Verification of the hparse specification against the repository.

The repository's `src/` tree contains only the benchmark driver
`src/bench/picohttpparser/main.c`.  The HTTP request parser itself
(`phr_parse_request` / hparse's parser) is declared and called there but its
source is not under `src/`, so the parser is modelled from the spec
(sections 3, 4, 6, 7 of `spec.md`), faithful to the spec's words.  The
benchmark driver is embedded from `main.c` directly.

Bytes are modelled as `Char` values (the source manipulates `char` buffers);
all byte classification goes through `Char.toNat`.
-/

set_option maxRecDepth 100000

namespace HParse

/-- Modelled from the spec: the error taxonomy of `parse_request`
(spec §6: `InvalidMethod | InvalidPath | InvalidVersion | InvalidHeaderName |
InvalidHeaderLine | TooManyHeaders`). -/
inductive ErrorKind where
  | InvalidMethod
  | InvalidPath
  | InvalidVersion
  | InvalidHeaderName
  | InvalidHeaderLine
  | TooManyHeaders
deriving DecidableEq, Repr

/-- Modelled from the spec: a header entry, a (name, value) pair of byte
slices (spec §3 HeaderEntry).  Slices are modelled by their byte contents. -/
structure Header where
  name : List Char
  value : List Char
deriving DecidableEq, Repr

/-- Modelled from the spec: the three-way outcome of a parse call
(spec §4.4, §6).  The `consumed_hint` payload of `Incomplete` is left
unspecified by the spec ("best-effort") and is omitted. -/
inductive ParseResult where
  | Complete (method : List Char) (path : List Char) (minorVersion : Nat)
      (headers : List Header) (consumed : Nat)
  | Incomplete
  | Error (kind : ErrorKind)
deriving DecidableEq, Repr

/-- Intermediate outcome of one scanning stage: success with the remaining
input, need-more-data, or a parse error. -/
inductive Step (α : Type) where
  | ok (a : α) (rest : List Char)
  | incomplete
  | fail (k : ErrorKind)
deriving DecidableEq, Repr

/-- Modelled from the spec: RFC token characters (spec §4.1 and glossary):
visible ASCII excluding the listed delimiters, space and control characters. -/
def isTokenChar (c : Char) : Bool :=
  let n := c.toNat
  decide (0x21 ≤ n) && decide (n ≤ 0x7e) &&
  !(n == 0x28 || n == 0x29 || n == 0x3c || n == 0x3e || n == 0x40 ||
    n == 0x2c || n == 0x3b || n == 0x3a || n == 0x5c || n == 0x22 ||
    n == 0x2f || n == 0x5b || n == 0x5d || n == 0x3f || n == 0x3d ||
    n == 0x7b || n == 0x7d)

/-- Modelled from the spec: path characters, "one or more non-space,
non-control characters" (spec §4.1). -/
def isPathChar (c : Char) : Bool :=
  decide (0x21 ≤ c.toNat) && !(c.toNat == 0x7f)

/-- Horizontal whitespace: space or tab (spec §4.2). -/
def isHWS (c : Char) : Bool :=
  c == ' ' || c == '\t'

/-- Modelled from the spec: bytes allowed inside a header line body —
everything except CR, LF and control characters, with tab allowed
(spec §4.2: control characters beyond what leniency allows are an error). -/
def isValueChar (c : Char) : Bool :=
  c == '\t' || (decide (0x20 ≤ c.toNat) && !(c.toNat == 0x7f))

/-- ASCII digit. -/
def isDigitChar (c : Char) : Bool :=
  decide (0x30 ≤ c.toNat) && decide (c.toNat ≤ 0x39)

/-- Modelled from the spec: scan a run of characters accepted by `valid`,
terminated by a single space (spec §4.1: "a single space separates method
from path", "runs until the next single space").  End of buffer before the
space is incomplete; a character that is neither valid nor the space is a
parse error of kind `k`. -/
def scanToken (valid : Char → Bool) (k : ErrorKind) : List Char → Step (List Char)
  | [] => .incomplete
  | c :: cs =>
    if c == ' ' then .ok [] cs
    else if valid c then
      match scanToken valid k cs with
      | .ok tok rest => .ok (c :: tok) rest
      | .incomplete => .incomplete
      | .fail e => .fail e
    else .fail k

/-- Modelled from the spec: match an exact literal (spec §4.1: "exact literal
`HTTP/1.`").  Buffer exhaustion inside the literal is incomplete; a
mismatching byte is a parse error of kind `k`. -/
def expectLit (k : ErrorKind) : List Char → List Char → Step Unit
  | [], rest => .ok () rest
  | _ :: _, [] => .incomplete
  | x :: xs, c :: cs => if c == x then expectLit k xs cs else .fail k

/-- Modelled from the spec: a line terminator, CRLF or lenient bare LF
(spec §4.1, §4.2 step 4).  Buffer ending before the terminator is
incomplete. -/
def expectLineEnd (k : ErrorKind) : List Char → Step Unit
  | [] => .incomplete
  | c :: cs =>
    if c == '\r' then
      match cs with
      | [] => .incomplete
      | d :: ds => if d == '\n' then .ok () ds else .fail k
    else if c == '\n' then .ok () cs
    else .fail k

/-- Modelled from the spec: the Request Line Scanner (spec §4.1): method
token, single space, path token, single space, `HTTP/1.` plus one digit
(reported as-is, spec §4.1: "reported as the minor version value as-is"),
then CRLF or bare LF.  Returns (method, path, minor version). -/
def parseRequestLine (input : List Char) : Step (List Char × List Char × Nat) :=
  match scanToken isTokenChar .InvalidMethod input with
  | .incomplete => .incomplete
  | .fail k => .fail k
  | .ok m r1 =>
    if m.isEmpty then .fail .InvalidMethod
    else
      match scanToken isPathChar .InvalidPath r1 with
      | .incomplete => .incomplete
      | .fail k => .fail k
      | .ok p r2 =>
        if p.isEmpty then .fail .InvalidPath
        else
          match expectLit .InvalidVersion ("HTTP/1.".toList) r2 with
          | .incomplete => .incomplete
          | .fail k => .fail k
          | .ok _ r3 =>
            match r3 with
            | [] => .incomplete
            | d :: r4 =>
              if isDigitChar d then
                match expectLineEnd .InvalidVersion r4 with
                | .incomplete => .incomplete
                | .fail k => .fail k
                | .ok _ r5 => .ok (m, p, d.toNat - 0x30) r5
              else .fail .InvalidVersion

/-- Modelled from the spec: extract one header-block line up to its CRLF or
bare-LF terminator (spec §4.2 step 4).  `Except.error none` means the buffer
ended before the terminator (incomplete, spec §4.2: "Buffer ending mid-line
… is incomplete"); `Except.error (some k)` is a malformed line (CR not
followed by LF, or a disallowed control byte). -/
def takeLine : List Char → Except (Option ErrorKind) (List Char × List Char)
  | [] => .error none
  | c :: cs =>
    if c == '\r' then
      match cs with
      | [] => .error none
      | d :: ds => if d == '\n' then .ok ([], ds) else .error (some .InvalidHeaderLine)
    else if c == '\n' then .ok ([], cs)
    else if isValueChar c then
      match takeLine cs with
      | .ok (line, rest) => .ok (c :: line, rest)
      | .error e => .error e
    else .error (some .InvalidHeaderLine)

/-- Modelled from the spec: split a header line at the first `:` after the
name, requiring every name byte to be a token character (spec §4.2 step 2).
A non-token byte before the colon is an invalid header name; a line with no
colon at all is a malformed header line. -/
def splitName : List Char → Except ErrorKind (List Char × List Char)
  | [] => .error .InvalidHeaderLine
  | c :: cs =>
    if c == ':' then .ok ([], cs)
    else if isTokenChar c then
      match splitName cs with
      | .ok (n, r) => .ok (c :: n, r)
      | .error k => .error k
    else .error .InvalidHeaderName

/-- Drop leading horizontal whitespace. -/
def trimLeft (l : List Char) : List Char := l.dropWhile isHWS

/-- Drop trailing horizontal whitespace. -/
def trimRight (l : List Char) : List Char := (trimLeft l.reverse).reverse

/-- Trim leading and trailing horizontal whitespace (spec §4.2 steps 1, 3). -/
def trim (l : List Char) : List Char := trimRight (trimLeft l)

/-- Modelled from the spec: parse one (non-empty, complete) header line
(spec §4.2 per-line algorithm).  A line starting with horizontal whitespace
is a folded continuation: name empty, value the trimmed continuation bytes
(step 1); a whitespace-only line is malformed (§4.2 edge cases).  Otherwise
a token-character name up to `:` (zero-length name is an error, step 2),
then the value with surrounding whitespace trimmed (step 3). -/
def parseHeaderLine : List Char → Except ErrorKind Header
  | [] => .error .InvalidHeaderLine
  | c :: cs =>
    if isHWS c then
      let v := trim (c :: cs)
      if v.isEmpty then .error .InvalidHeaderLine
      else .ok ⟨[], v⟩
    else if c == ':' then .error .InvalidHeaderName
    else
      match splitName (c :: cs) with
      | .error k => .error k
      | .ok (name, after) => .ok ⟨name, trim after⟩

/-- Modelled from the spec: the Header Block Scanner loop (spec §4.2):
one header line per iteration until the empty line; each completed line
takes one slot, and exceeding the caller's capacity is the distinct error
`TooManyHeaders` (§4.2 edge cases).  `fuel` bounds the recursion; every
iteration consumes at least one byte, so `input.length + 1` fuel is always
enough. -/
def parseHeaders : Nat → List Char → Nat → List Header → Step (List Header)
  | 0, _, _, _ => .incomplete
  | fuel + 1, input, cap, acc =>
    match takeLine input with
    | .error none => .incomplete
    | .error (some k) => .fail k
    | .ok (line, rest) =>
      match line with
      | [] => .ok acc.reverse rest
      | c :: cs =>
        match parseHeaderLine (c :: cs) with
        | .error k => .fail k
        | .ok h =>
          if acc.length < cap then parseHeaders fuel rest cap (h :: acc)
          else .fail .TooManyHeaders

/-- Modelled from the spec: `parse_request` (spec §6), the single external
interface.  The request line scanner runs first, then the header block
scanner on the remainder; `consumed` is the offset of the first body byte.
Per spec §4.3 the `lastConsumedHint` is purely a re-scan optimization and
"does not change parse results", so the model takes it and ignores it. -/
def parse_request (input : List Char) (lastConsumedHint : Nat) (maxHeaders : Nat) :
    ParseResult :=
  match parseRequestLine input with
  | .incomplete => .Incomplete
  | .fail k => .Error k
  | .ok (m, p, v) r =>
    match parseHeaders (r.length + 1) r maxHeaders [] with
    | .incomplete => .Incomplete
    | .fail k => .Error k
    | .ok hs rest => .Complete m p v hs (input.length - rest.length)

/-! ## The benchmark driver (src/bench/picohttpparser/main.c) -/

/-- The bytes of the string literal `REQ` (main.c line 4), without the
terminating NUL. -/
def REQ : List Char :=
  ("GET /cookies HTTP/1.1\r\nHost: 127.0.0.1:8090\r\nConnection: keep-alive\r\nCache-Control: max-age=0\r\nAccept: text/html,application/xhtml+xml,application/xml;q=0.9,*/*;q=0.8\r\nUser-Agent: Mozilla/5.0 (Windows NT 6.1; WOW64) AppleWebKit/537.17 (KHTML, like Gecko) Chrome/24.0.1312.56 Safari/537.17\r\nAccept-Encoding: gzip,deflate,sdch\r\nAccept-Language: en-US,en;q=0.8\r\nAccept-Charset: ISO-8859-1,utf-8;q=0.7,*;q=0.3\r\nCookie: name=wookie\r\n\r\n").toList

/-- The C array backing the `REQ` string literal: its characters plus the
terminating NUL byte. -/
def REQarray : List Char := REQ ++ [Char.ofNat 0]

/-- `sizeof(REQ)` in main.c: the length of the array, NUL included. -/
def sizeofREQ : Nat := REQarray.length

/-- The arguments of one `phr_parse_request` call in the benchmark loop:
the buffer bytes actually passed (`REQ` with length `sizeof(REQ) - 1`),
the header capacity passed through `num_headers`, and the `last_len`
argument. -/
structure BenchCall where
  buf : List Char
  numHeaders : Nat
  lastLen : Nat
deriving DecidableEq, Repr

/-- The call made by each loop iteration (main.c lines 15–20): the buffer is
the first `sizeof(REQ) - 1` bytes of the array, `num_headers` is re-set to
`sizeof(headers)/sizeof(headers[0]) = 32` on line 18 just before the call,
and `last_len` is the literal `0`. -/
def benchCall : BenchCall :=
  { buf := REQarray.take (sizeofREQ - 1), numHeaders := 32, lastLen := 0 }

/-- The `while (i < 10000000)` loop of main.c lines 9–23, as the sequence of
`phr_parse_request` calls it performs from counter value `i` on.  All locals
of the body are declared inside the loop (lines 10–16), so the body depends
on nothing but the constants; each iteration's parse outputs die with the
iteration. -/
def benchLoop (i : Nat) : List BenchCall :=
  if _h : i < 10000000 then benchCall :: benchLoop (i + 1) else []
termination_by 10000000 - i
decreasing_by omega

/-- `main` (main.c lines 6–26): runs the loop from `i = 0` and returns 0. -/
def benchMain : List BenchCall × Int := (benchLoop 0, 0)

/-- The header entries of the benchmark request `REQ`, in encounter order. -/
def REQheaders : List Header :=
  [⟨"Host".toList, "127.0.0.1:8090".toList⟩,
   ⟨"Connection".toList, "keep-alive".toList⟩,
   ⟨"Cache-Control".toList, "max-age=0".toList⟩,
   ⟨"Accept".toList, "text/html,application/xhtml+xml,application/xml;q=0.9,*/*;q=0.8".toList⟩,
   ⟨"User-Agent".toList, "Mozilla/5.0 (Windows NT 6.1; WOW64) AppleWebKit/537.17 (KHTML, like Gecko) Chrome/24.0.1312.56 Safari/537.17".toList⟩,
   ⟨"Accept-Encoding".toList, "gzip,deflate,sdch".toList⟩,
   ⟨"Accept-Language".toList, "en-US,en;q=0.8".toList⟩,
   ⟨"Accept-Charset".toList, "ISO-8859-1,utf-8;q=0.7,*;q=0.3".toList⟩,
   ⟨"Cookie".toList, "name=wookie".toList⟩]

/-- The concrete input of the spec §8 cookies scenario. -/
def c2input : List Char :=
  ("GET /cookies HTTP/1.1\r\nHost: 127.0.0.1:8090\r\nConnection: keep-alive\r\n\r\n").toList

/-- The CRLF-to-bare-LF rewriting of claim C7: every `\r\n` pair is replaced
by a single `\n`; all other bytes are kept. -/
def stripCRLF : List Char → List Char
  | [] => []
  | [c] => [c]
  | c :: d :: rest =>
    if c == '\r' && d == '\n' then '\n' :: stripCRLF rest
    else c :: stripCRLF (d :: rest)

/-- The loop from counter `i` performs exactly `10000000 - i` identical
calls. -/
theorem benchLoop_eq_replicate :
    ∀ k i, i + k = 10000000 → benchLoop i = List.replicate k benchCall := by
  intro k
  induction k with
  | zero =>
    intro i hi
    rw [benchLoop]
    simp only [Nat.add_zero] at hi
    simp [hi]
  | succ n ih =>
    intro i hi
    rw [benchLoop]
    have hlt : i < 10000000 := by omega
    simp only [hlt, dif_pos, List.replicate_succ]
    exact congrArg _ (ih (i + 1) (by omega))

/-- Claim C1: the benchmark driver's main function calls `phr_parse_request`
exactly 10,000,000 times, each time on the same fixed well-formed request
buffer `REQ` with header capacity 32 and last-consumed hint 0, discards the
parse result on every iteration (the loop carries nothing but the counter),
and returns 0. -/
theorem bench_main_ten_million_calls :
    benchMain = (List.replicate 10000000 benchCall, 0) ∧
    benchCall = ⟨REQ, 32, 0⟩ ∧
    parse_request REQ 0 32 =
      .Complete "GET".toList "/cookies".toList 1 REQheaders REQ.length := by
  refine ⟨?_, by decide, by decide⟩
  unfold benchMain
  rw [benchLoop_eq_replicate 10000000 0 rfl]

/-- Claim C10: every loop iteration of the benchmark driver re-initializes
`num_headers` to the full capacity 32 before calling `phr_parse_request`
(so each call is independent of what the previous call wrote into it), and
the buffer passed is `REQ` with length `sizeof(REQ) - 1`, excluding the
string literal's terminating NUL byte. -/
theorem bench_iteration_arguments (c : BenchCall) (hc : c ∈ benchLoop 0) :
    c.numHeaders = 32 ∧ c.buf = REQ ∧ c.buf.length = sizeofREQ - 1 ∧
      c.lastLen = 0 := by
  rw [benchLoop_eq_replicate 10000000 0 rfl] at hc
  have hce := List.eq_of_mem_replicate hc
  subst hce
  exact ⟨rfl, by decide, by decide, rfl⟩

/-- Witness for C10: the first iteration's call satisfies the property. -/
theorem bench_iteration_arguments_witness :
    benchCall.numHeaders = 32 ∧ benchCall.buf = REQ ∧
      benchCall.buf.length = sizeofREQ - 1 ∧ benchCall.lastLen = 0 :=
  bench_iteration_arguments benchCall
    (by rw [benchLoop_eq_replicate 10000000 0 rfl]
        exact List.mem_replicate.2 ⟨by decide, rfl⟩)

/-- Claim C2: for the cookies scenario input with `max_headers = 32`,
`parse_request` returns Complete with method "GET", path "/cookies", minor
version 1, headers [(Host, 127.0.0.1:8090), (Connection, keep-alive)] in
that order, and consumed equal to the input length. -/
theorem cookies_scenario_complete :
    parse_request c2input 0 32 =
      .Complete "GET".toList "/cookies".toList 1
        [⟨"Host".toList, "127.0.0.1:8090".toList⟩,
         ⟨"Connection".toList, "keep-alive".toList⟩]
        c2input.length := by
  decide

/-- Claim C9: `parse_request` is a pure deterministic function of the input
bytes alone: two calls on the same bytes yield identical results, and the
result is the same for every value of the last-consumed hint.  (The model
follows spec §4.3, which states the hint "does not change parse results,
only work avoided"; the model has no cost semantics, so the hint is taken
and ignored.) -/
theorem parse_request_pure_hint_independent (input : List Char)
    (hint₁ hint₂ cap : Nat) :
    parse_request input hint₁ cap = parse_request input hint₁ cap ∧
    parse_request input hint₁ cap = parse_request input hint₂ cap :=
  ⟨rfl, rfl⟩

/-- Claim C4 counterexample: the claim's general clause — every version
token other than the exact literal `HTTP/1.` followed by digit 0 or 1
yields `Error InvalidVersion` — is false: `HTTP/1.2` is such a token, yet
the request parses Complete with minor version 2 (spec §4.1 explicitly
says a digit greater than 1 "is reported as the minor version value
as-is … parsing does not reject"). -/
theorem version_digit_two_not_rejected :
    parse_request ("GET / HTTP/1.2\r\n\r\n".toList) 0 32 =
      .Complete "GET".toList "/".toList 2 [] 18 ∧
    parse_request ("GET / HTTP/1.2\r\n\r\n".toList) 0 32 ≠ .Error .InvalidVersion := by
  decide

/-- Claim C4 amended: for the input `"GET / HTTP/2.9\r\n\r\n"` — and in
general for any version token that is not the exact literal `HTTP/1.`
followed by a single ASCII digit — `parse_request` returns
`Error InvalidVersion`; a digit other than 0 or 1 after `HTTP/1.` is
accepted and reported as-is.  The second conjunct covers an arbitrary
non-digit in the minor-version position, the third an arbitrary wrong byte
in the major-version position. -/
theorem invalid_version_token_rejected (d e : Char)
    (hd : isDigitChar d = false) (he : (e == '1') = false) :
    parse_request ("GET / HTTP/2.9\r\n\r\n".toList) 0 32 = .Error .InvalidVersion ∧
    parse_request ("GET / HTTP/1.".toList ++ d :: "\r\n\r\n".toList) 0 32 =
      .Error .InvalidVersion ∧
    parse_request ("GET / HTTP/".toList ++ e :: ".9\r\n\r\n".toList) 0 32 =
      .Error .InvalidVersion := by
  refine ⟨by decide, ?_, ?_⟩
  · show parse_request ('G' :: 'E' :: 'T' :: ' ' :: '/' :: ' ' :: 'H' :: 'T' :: 'T' :: 'P' :: '/' :: '1' :: '.' :: d :: '\r' :: '\n' :: '\r' :: '\n' :: []) 0 32 = .Error .InvalidVersion
    simp +decide [parse_request, parseRequestLine, scanToken, expectLit, hd]
  · show parse_request ('G' :: 'E' :: 'T' :: ' ' :: '/' :: ' ' :: 'H' :: 'T' :: 'T' :: 'P' :: '/' :: e :: '.' :: '9' :: '\r' :: '\n' :: '\r' :: '\n' :: []) 0 32 = .Error .InvalidVersion
    simp +decide [parse_request, parseRequestLine, scanToken, expectLit, he]

/-- Witness for the amended C4: instantiated at `d := '/'` (a non-digit in
the minor slot) and `e := '2'` (the concrete `HTTP/2.9` major slot). -/
theorem invalid_version_token_rejected_witness :
    isDigitChar '/' = false ∧ ('2' == '1') = false ∧
    parse_request ("GET / HTTP/2.9\r\n\r\n".toList) 0 32 = .Error .InvalidVersion ∧
    parse_request ("GET / HTTP/1.".toList ++ '/' :: "\r\n\r\n".toList) 0 32 =
      .Error .InvalidVersion ∧
    parse_request ("GET / HTTP/".toList ++ '2' :: ".9\r\n\r\n".toList) 0 32 =
      .Error .InvalidVersion :=
  ⟨by decide, by decide,
    invalid_version_token_rejected '/' '2' (by decide) (by decide)⟩

/-! ## Lemmas about the line scanner -/

/-- Extending the input does not change a successfully extracted line. -/
theorem takeLine_append_ok (e : List Char) :
    ∀ (l line rest : List Char), takeLine l = .ok (line, rest) →
      takeLine (l ++ e) = .ok (line, rest ++ e) := by
  intro l
  induction l with
  | nil => intro line rest h; simp [takeLine] at h
  | cons c cs ih =>
    intro line rest h
    simp only [List.cons_append] at h ⊢
    simp only [takeLine] at h ⊢
    cases hcr : c == '\r' with
    | true =>
      simp only [hcr, if_true] at h ⊢
      cases cs with
      | nil => simp at h
      | cons d ds =>
        simp only [List.cons_append]
        cases hdn : d == '\n' with
        | true =>
          simp only [hdn, if_true] at h ⊢
          cases h
          rfl
        | false => simp [hdn] at h
    | false =>
      simp only [hcr, Bool.false_eq_true, if_false] at h ⊢
      cases hcn : c == '\n' with
      | true =>
        simp only [hcn, if_true] at h ⊢
        cases h
        rfl
      | false =>
        simp only [hcn, Bool.false_eq_true, if_false] at h ⊢
        cases hv : isValueChar c with
        | true =>
          simp only [hv, if_true] at h ⊢
          cases hrec : takeLine cs with
          | error k => rw [hrec] at h; cases h
          | ok pr =>
            obtain ⟨line', rest'⟩ := pr
            rw [hrec] at h
            cases h
            rw [ih _ _ hrec]
        | false => simp [hv] at h

/-- Extending the input does not change a malformed-line error. -/
theorem takeLine_append_fail (e : List Char) :
    ∀ (l : List Char) (k : ErrorKind), takeLine l = .error (some k) →
      takeLine (l ++ e) = .error (some k) := by
  intro l
  induction l with
  | nil => intro k h; simp [takeLine] at h
  | cons c cs ih =>
    intro k h
    simp only [List.cons_append] at h ⊢
    simp only [takeLine] at h ⊢
    cases hcr : c == '\r' with
    | true =>
      simp only [hcr, if_true] at h ⊢
      cases cs with
      | nil => simp at h
      | cons d ds =>
        simp only [List.cons_append]
        cases hdn : d == '\n' with
        | true => simp only [hdn, if_true] at h ⊢; cases h
        | false =>
          simp only [hdn, Bool.false_eq_true, if_false] at h ⊢
          exact h
    | false =>
      simp only [hcr, Bool.false_eq_true, if_false] at h ⊢
      cases hcn : c == '\n' with
      | true => simp only [hcn, if_true] at h ⊢; cases h
      | false =>
        simp only [hcn, Bool.false_eq_true, if_false] at h ⊢
        cases hv : isValueChar c with
        | true =>
          simp only [hv, if_true] at h ⊢
          cases hrec : takeLine cs with
          | error k' =>
            rw [hrec] at h
            cases h
            rw [ih _ hrec]
          | ok pr => rw [hrec] at h; cases h
        | false =>
          simp only [hv, Bool.false_eq_true, if_false] at h ⊢
          exact h

/-- A successfully extracted line consumes at least one byte. -/
theorem takeLine_rest_length :
    ∀ (l line rest : List Char), takeLine l = .ok (line, rest) →
      rest.length < l.length := by
  intro l
  induction l with
  | nil => intro line rest h; simp [takeLine] at h
  | cons c cs ih =>
    intro line rest h
    simp only [takeLine] at h
    cases hcr : c == '\r' with
    | true =>
      simp only [hcr, if_true] at h
      cases cs with
      | nil => simp at h
      | cons d ds =>
        cases hdn : d == '\n' with
        | true =>
          simp only [hdn, if_true] at h
          cases h
          simp only [List.length_cons]
          omega
        | false => simp [hdn] at h
    | false =>
      simp only [hcr, Bool.false_eq_true, if_false] at h
      cases hcn : c == '\n' with
      | true =>
        simp only [hcn, if_true] at h
        cases h
        simp
      | false =>
        simp only [hcn, Bool.false_eq_true, if_false] at h
        cases hv : isValueChar c with
        | true =>
          simp only [hv, if_true] at h
          cases hrec : takeLine cs with
          | error k => rw [hrec] at h; cases h
          | ok pr =>
            obtain ⟨line', rest'⟩ := pr
            rw [hrec] at h
            cases h
            have := ih _ _ hrec
            simp only [List.length_cons]
            omega
        | false => simp [hv] at h

/-! ## Lemmas about the token scanners -/

/-- Extending the input does not change a successfully scanned token. -/
theorem scanToken_append_ok (valid : Char → Bool) (k : ErrorKind) (e : List Char) :
    ∀ (l tok rest : List Char), scanToken valid k l = .ok tok rest →
      scanToken valid k (l ++ e) = .ok tok (rest ++ e) := by
  intro l
  induction l with
  | nil => intro tok rest h; simp [scanToken] at h
  | cons c cs ih =>
    intro tok rest h
    simp only [List.cons_append] at h ⊢
    simp only [scanToken] at h ⊢
    cases hsp : c == ' ' with
    | true =>
      simp only [hsp, if_true] at h ⊢
      cases h
      rfl
    | false =>
      simp only [hsp, Bool.false_eq_true, if_false] at h ⊢
      cases hv : valid c with
      | true =>
        simp only [hv, if_true] at h ⊢
        cases hrec : scanToken valid k cs with
        | ok t r =>
          rw [hrec] at h
          cases h
          rw [ih _ _ hrec]
        | incomplete => rw [hrec] at h; cases h
        | fail e' => rw [hrec] at h; cases h
      | false => simp [hv] at h

/-- Extending the input does not change a token-scan error. -/
theorem scanToken_append_fail (valid : Char → Bool) (k : ErrorKind) (e : List Char) :
    ∀ (l : List Char) (k' : ErrorKind), scanToken valid k l = .fail k' →
      scanToken valid k (l ++ e) = .fail k' := by
  intro l
  induction l with
  | nil => intro k' h; simp [scanToken] at h
  | cons c cs ih =>
    intro k' h
    simp only [List.cons_append] at h ⊢
    simp only [scanToken] at h ⊢
    cases hsp : c == ' ' with
    | true => simp only [hsp, if_true] at h ⊢; cases h
    | false =>
      simp only [hsp, Bool.false_eq_true, if_false] at h ⊢
      cases hv : valid c with
      | true =>
        simp only [hv, if_true] at h ⊢
        cases hrec : scanToken valid k cs with
        | ok t r => rw [hrec] at h; cases h
        | incomplete => rw [hrec] at h; cases h
        | fail e' =>
          rw [hrec] at h
          cases h
          rw [ih _ hrec]
      | false =>
        simp only [hv, Bool.false_eq_true, if_false] at h ⊢
        exact h

/-- A run of accepted, non-space characters followed by a space scans to
exactly that run. -/
theorem scanToken_exact (valid : Char → Bool) (k : ErrorKind) :
    ∀ (m rest : List Char),
      (∀ c ∈ m, valid c = true ∧ (c == ' ') = false) →
      scanToken valid k (m ++ ' ' :: rest) = .ok m rest := by
  intro m
  induction m with
  | nil => intro rest _; simp [scanToken]
  | cons c m' ih =>
    intro rest hm
    obtain ⟨hv, hsp⟩ := hm c (List.mem_cons_self c m')
    simp only [List.cons_append, scanToken, hsp, Bool.false_eq_true, if_false, hv, if_true,
      List.append_eq]
    rw [ih rest fun d hd => hm d (List.mem_cons_of_mem c hd)]

/-- Extending the input does not change a successfully matched literal. -/
theorem expectLit_append_ok (k : ErrorKind) (e : List Char) :
    ∀ (lit l rest : List Char), expectLit k lit l = .ok () rest →
      expectLit k lit (l ++ e) = .ok () (rest ++ e) := by
  intro lit
  induction lit with
  | nil =>
    intro l rest h
    simp only [expectLit] at h ⊢
    cases h
    rfl
  | cons x xs ih =>
    intro l rest h
    cases l with
    | nil => simp [expectLit] at h
    | cons c cs =>
      simp only [List.cons_append] at h ⊢
      simp only [expectLit] at h ⊢
      cases hcx : c == x with
      | true =>
        simp only [hcx, if_true] at h ⊢
        exact ih _ _ h
      | false => simp [hcx] at h

/-- Extending the input does not change a literal-mismatch error. -/
theorem expectLit_append_fail (k : ErrorKind) (e : List Char) :
    ∀ (lit l : List Char) (k' : ErrorKind), expectLit k lit l = .fail k' →
      expectLit k lit (l ++ e) = .fail k' := by
  intro lit
  induction lit with
  | nil => intro l k' h; simp [expectLit] at h
  | cons x xs ih =>
    intro l k' h
    cases l with
    | nil => simp [expectLit] at h
    | cons c cs =>
      simp only [List.cons_append] at h ⊢
      simp only [expectLit] at h ⊢
      cases hcx : c == x with
      | true =>
        simp only [hcx, if_true] at h ⊢
        exact ih _ _ h
      | false =>
        simp only [hcx, Bool.false_eq_true, if_false] at h ⊢
        exact h

/-- A literal matches an input that starts with exactly that literal. -/
theorem expectLit_exact (k : ErrorKind) :
    ∀ (lit rest : List Char), expectLit k lit (lit ++ rest) = .ok () rest := by
  intro lit
  induction lit with
  | nil => intro rest; rfl
  | cons x xs ih =>
    intro rest
    simp only [List.cons_append, expectLit, BEq.refl, if_true]
    exact ih rest

/-- Extending the input does not change a successfully matched line end. -/
theorem expectLineEnd_append_ok (k : ErrorKind) (e : List Char) :
    ∀ (l rest : List Char), expectLineEnd k l = .ok () rest →
      expectLineEnd k (l ++ e) = .ok () (rest ++ e) := by
  intro l rest h
  cases l with
  | nil => simp [expectLineEnd] at h
  | cons c cs =>
    simp only [List.cons_append] at h ⊢
    simp only [expectLineEnd] at h ⊢
    cases hcr : c == '\r' with
    | true =>
      simp only [hcr, if_true] at h ⊢
      cases cs with
      | nil => simp at h
      | cons d ds =>
        simp only [List.cons_append]
        cases hdn : d == '\n' with
        | true =>
          simp only [hdn, if_true] at h ⊢
          cases h
          rfl
        | false => simp [hdn] at h
    | false =>
      simp only [hcr, Bool.false_eq_true, if_false] at h ⊢
      cases hcn : c == '\n' with
      | true =>
        simp only [hcn, if_true] at h ⊢
        cases h
        rfl
      | false => simp [hcn] at h

/-- Extending the input does not change a line-end mismatch error. -/
theorem expectLineEnd_append_fail (k : ErrorKind) (e : List Char) :
    ∀ (l : List Char) (k' : ErrorKind), expectLineEnd k l = .fail k' →
      expectLineEnd k (l ++ e) = .fail k' := by
  intro l k' h
  cases l with
  | nil => simp [expectLineEnd] at h
  | cons c cs =>
    simp only [List.cons_append] at h ⊢
    simp only [expectLineEnd] at h ⊢
    cases hcr : c == '\r' with
    | true =>
      simp only [hcr, if_true] at h ⊢
      cases cs with
      | nil => simp at h
      | cons d ds =>
        simp only [List.cons_append]
        cases hdn : d == '\n' with
        | true => simp only [hdn, if_true] at h ⊢; cases h
        | false =>
          simp only [hdn, Bool.false_eq_true, if_false] at h ⊢
          exact h
    | false =>
      simp only [hcr, Bool.false_eq_true, if_false] at h ⊢
      cases hcn : c == '\n' with
      | true => simp only [hcn, if_true] at h ⊢; cases h
      | false =>
        simp only [hcn, Bool.false_eq_true, if_false] at h ⊢
        exact h

/-- A token character is not the space separator. -/
theorem isTokenChar_not_space (c : Char) (h : isTokenChar c = true) :
    (c == ' ') = false := by
  cases hsp : c == ' ' with
  | true =>
    have hc := eq_of_beq hsp
    subst hc
    simp [isTokenChar] at h
  | false => rfl

/-- A path character is not the space separator. -/
theorem isPathChar_not_space (c : Char) (h : isPathChar c = true) :
    (c == ' ') = false := by
  cases hsp : c == ' ' with
  | true =>
    have hc := eq_of_beq hsp
    subst hc
    simp [isPathChar] at h
  | false => rfl

/-! ## Lemmas about the request line scanner -/

/-- Extending the input does not change a successfully parsed request
line. -/
theorem parseRequestLine_append_ok (e input : List Char) (m p : List Char)
    (v : Nat) (r : List Char) (h : parseRequestLine input = .ok (m, p, v) r) :
    parseRequestLine (input ++ e) = .ok (m, p, v) (r ++ e) := by
  unfold parseRequestLine at h ⊢
  cases h1 : scanToken isTokenChar .InvalidMethod input with
  | incomplete => rw [h1] at h; cases h
  | fail k => rw [h1] at h; cases h
  | ok m1 r1 =>
    rw [h1] at h
    rw [scanToken_append_ok _ _ e _ _ _ h1]
    cases hm1 : m1.isEmpty with
    | true => simp only [hm1, if_true] at h; cases h
    | false =>
      simp only [hm1, Bool.false_eq_true, if_false] at h ⊢
      cases h2 : scanToken isPathChar .InvalidPath r1 with
      | incomplete => rw [h2] at h; cases h
      | fail k => rw [h2] at h; cases h
      | ok p1 r2 =>
        rw [h2] at h
        rw [scanToken_append_ok _ _ e _ _ _ h2]
        cases hp1 : p1.isEmpty with
        | true => simp only [hp1, if_true] at h; cases h
        | false =>
          simp only [hp1, Bool.false_eq_true, if_false] at h ⊢
          cases h3 : expectLit .InvalidVersion ("HTTP/1.".toList) r2 with
          | incomplete => rw [h3] at h; cases h
          | fail k => rw [h3] at h; cases h
          | ok u r3 =>
            cases u
            rw [h3] at h
            rw [expectLit_append_ok _ e _ _ _ h3]
            cases r3 with
            | nil => cases h
            | cons d r4 =>
              simp only [List.cons_append]
              cases hd : isDigitChar d with
              | true =>
                simp only [hd, if_true] at h ⊢
                cases h4 : expectLineEnd .InvalidVersion r4 with
                | incomplete => rw [h4] at h; cases h
                | fail k => rw [h4] at h; cases h
                | ok u2 r5 =>
                  cases u2
                  rw [h4] at h
                  rw [expectLineEnd_append_ok _ e _ _ h4]
                  cases h
                  rfl
              | false => simp [hd] at h

/-- Extending the input does not change a request-line parse error. -/
theorem parseRequestLine_append_fail (e input : List Char) (k : ErrorKind)
    (h : parseRequestLine input = .fail k) :
    parseRequestLine (input ++ e) = .fail k := by
  unfold parseRequestLine at h ⊢
  cases h1 : scanToken isTokenChar .InvalidMethod input with
  | incomplete => rw [h1] at h; cases h
  | fail k1 =>
    rw [h1] at h
    rw [scanToken_append_fail _ _ e _ _ h1]
    cases h
    rfl
  | ok m1 r1 =>
    rw [h1] at h
    rw [scanToken_append_ok _ _ e _ _ _ h1]
    cases hm1 : m1.isEmpty with
    | true =>
      simp only [hm1, if_true] at h ⊢
      exact h
    | false =>
      simp only [hm1, Bool.false_eq_true, if_false] at h ⊢
      cases h2 : scanToken isPathChar .InvalidPath r1 with
      | incomplete => rw [h2] at h; cases h
      | fail k2 =>
        rw [h2] at h
        rw [scanToken_append_fail _ _ e _ _ h2]
        cases h
        rfl
      | ok p1 r2 =>
        rw [h2] at h
        rw [scanToken_append_ok _ _ e _ _ _ h2]
        cases hp1 : p1.isEmpty with
        | true =>
          simp only [hp1, if_true] at h ⊢
          exact h
        | false =>
          simp only [hp1, Bool.false_eq_true, if_false] at h ⊢
          cases h3 : expectLit .InvalidVersion ("HTTP/1.".toList) r2 with
          | incomplete => rw [h3] at h; cases h
          | fail k3 =>
            rw [h3] at h
            rw [expectLit_append_fail _ e _ _ _ h3]
            cases h
            rfl
          | ok u r3 =>
            cases u
            rw [h3] at h
            rw [expectLit_append_ok _ e _ _ _ h3]
            cases r3 with
            | nil => cases h
            | cons d r4 =>
              simp only [List.cons_append]
              cases hd : isDigitChar d with
              | true =>
                simp only [hd, if_true] at h ⊢
                cases h4 : expectLineEnd .InvalidVersion r4 with
                | incomplete => rw [h4] at h; cases h
                | fail k4 =>
                  rw [h4] at h
                  rw [expectLineEnd_append_fail _ e _ _ h4]
                  cases h
                  rfl
                | ok u2 r5 =>
                  cases u2
                  rw [h4] at h
                  rw [expectLineEnd_append_ok _ e _ _ h4]
                  cases h
              | false =>
                simp only [hd, Bool.false_eq_true, if_false] at h ⊢
                exact h

/-- A well-shaped request line parses to exactly its components: token
method, path, and the literal `HTTP/1.` with one digit, CRLF-terminated. -/
theorem parseRequestLine_exact (m p : List Char) (d : Char) (rest : List Char)
    (hm : m ≠ []) (hmc : ∀ c ∈ m, isTokenChar c = true)
    (hp : p ≠ []) (hpc : ∀ c ∈ p, isPathChar c = true)
    (hd : isDigitChar d = true) :
    parseRequestLine (m ++ (' ' :: (p ++ (' ' :: ("HTTP/1.".toList ++ (d :: '\r' :: '\n' :: rest))))))
      = .ok (m, p, d.toNat - 0x30) rest := by
  unfold parseRequestLine
  rw [scanToken_exact _ _ m _ fun c hc => ⟨hmc c hc, isTokenChar_not_space c (hmc c hc)⟩]
  have hm' : m.isEmpty = false := by
    cases m with
    | nil => exact absurd rfl hm
    | cons a as => rfl
  simp only [hm', Bool.false_eq_true, if_false]
  rw [scanToken_exact _ _ p _ fun c hc => ⟨hpc c hc, isPathChar_not_space c (hpc c hc)⟩]
  have hp' : p.isEmpty = false := by
    cases p with
    | nil => exact absurd rfl hp
    | cons a as => rfl
  simp only [hp', Bool.false_eq_true, if_false]
  rw [expectLit_exact]
  simp only [hd, if_true]
  simp [expectLineEnd]

/-! ## Lemmas about the header block scanner -/

/-- More fuel preserves a successful header-block parse. -/
theorem parseHeaders_mono_ok :
    ∀ (f : Nat) (l : List Char) (cap : Nat) (acc hs : List Header) (r : List Char) (g : Nat),
      parseHeaders f l cap acc = .ok hs r → f ≤ g →
      parseHeaders g l cap acc = .ok hs r := by
  intro f
  induction f with
  | zero => intro l cap acc hs r g h _; simp [parseHeaders] at h
  | succ n ih =>
    intro l cap acc hs r g h hle
    obtain ⟨g', rfl⟩ : ∃ k, g = k + 1 := ⟨g - 1, by omega⟩
    simp only [parseHeaders] at h ⊢
    cases htl : takeLine l with
    | error o => simp only [htl] at h; cases o <;> simp at h
    | ok pr =>
      obtain ⟨line, rest⟩ := pr
      simp only [htl] at h ⊢
      cases line with
      | nil => exact h
      | cons c cs =>
        cases hpl : parseHeaderLine (c :: cs) with
        | error k => simp only [hpl] at h; cases h
        | ok hd =>
          simp only [hpl] at h ⊢
          by_cases hcap : acc.length < cap
          · simp only [if_pos hcap] at h ⊢
            exact ih _ _ _ _ _ _ h (by omega)
          · simp only [if_neg hcap] at h; cases h

/-- More fuel preserves a header-block parse error. -/
theorem parseHeaders_mono_fail :
    ∀ (f : Nat) (l : List Char) (cap : Nat) (acc : List Header) (k : ErrorKind) (g : Nat),
      parseHeaders f l cap acc = .fail k → f ≤ g →
      parseHeaders g l cap acc = .fail k := by
  intro f
  induction f with
  | zero => intro l cap acc k g h _; simp [parseHeaders] at h
  | succ n ih =>
    intro l cap acc k g h hle
    obtain ⟨g', rfl⟩ : ∃ k', g = k' + 1 := ⟨g - 1, by omega⟩
    simp only [parseHeaders] at h ⊢
    cases htl : takeLine l with
    | error o =>
      simp only [htl] at h ⊢
      cases o with
      | none => simp at h
      | some k' => exact h
    | ok pr =>
      obtain ⟨line, rest⟩ := pr
      simp only [htl] at h ⊢
      cases line with
      | nil => exact h
      | cons c cs =>
        cases hpl : parseHeaderLine (c :: cs) with
        | error k' =>
          simp only [hpl] at h ⊢
          exact h
        | ok hd =>
          simp only [hpl] at h ⊢
          by_cases hcap : acc.length < cap
          · simp only [if_pos hcap] at h ⊢
            exact ih _ _ _ _ _ h (by omega)
          · simp only [if_neg hcap] at h ⊢
            exact h

/-- Any two sufficient fuels give the same header-block result. -/
theorem parseHeaders_fuel_eq :
    ∀ (f : Nat) (l : List Char) (g cap : Nat) (acc : List Header),
      l.length < f → l.length < g →
      parseHeaders f l cap acc = parseHeaders g l cap acc := by
  intro f
  induction f with
  | zero => intro l g cap acc h1 _; omega
  | succ n ih =>
    intro l g cap acc h1 h2
    obtain ⟨g', rfl⟩ : ∃ k, g = k + 1 := ⟨g - 1, by omega⟩
    simp only [parseHeaders]
    cases htl : takeLine l with
    | error o => cases o <;> rfl
    | ok pr =>
      obtain ⟨line, rest⟩ := pr
      cases line with
      | nil => rfl
      | cons c cs =>
        simp only []
        cases hpl : parseHeaderLine (c :: cs) with
        | error k => rfl
        | ok hd =>
          by_cases hcap : acc.length < cap
          · simp only [if_pos hcap]
            have hrl := takeLine_rest_length l (c :: cs) rest htl
            exact ih rest g' cap (hd :: acc) (by omega) (by omega)
          · simp only [if_neg hcap]

/-- Extending the input does not change a successful header-block parse
(same fuel: the iteration count depends only on the lines consumed). -/
theorem parseHeaders_append_ok (e : List Char) :
    ∀ (f : Nat) (l : List Char) (cap : Nat) (acc hs : List Header) (r : List Char),
      parseHeaders f l cap acc = .ok hs r →
      parseHeaders f (l ++ e) cap acc = .ok hs (r ++ e) := by
  intro f
  induction f with
  | zero => intro l cap acc hs r h; simp [parseHeaders] at h
  | succ n ih =>
    intro l cap acc hs r h
    simp only [parseHeaders] at h ⊢
    cases htl : takeLine l with
    | error o => simp only [htl] at h; cases o <;> simp at h
    | ok pr =>
      obtain ⟨line, rest⟩ := pr
      simp only [htl] at h
      simp only [takeLine_append_ok e l line rest htl]
      cases line with
      | nil =>
        cases h
        rfl
      | cons c cs =>
        cases hpl : parseHeaderLine (c :: cs) with
        | error k => simp only [hpl] at h; cases h
        | ok hd =>
          simp only [hpl] at h ⊢
          by_cases hcap : acc.length < cap
          · simp only [if_pos hcap] at h ⊢
            exact ih _ _ _ _ _ h
          · simp only [if_neg hcap] at h; cases h

/-- Extending the input does not change a header-block parse error. -/
theorem parseHeaders_append_fail (e : List Char) :
    ∀ (f : Nat) (l : List Char) (cap : Nat) (acc : List Header) (k : ErrorKind),
      parseHeaders f l cap acc = .fail k →
      parseHeaders f (l ++ e) cap acc = .fail k := by
  intro f
  induction f with
  | zero => intro l cap acc k h; simp [parseHeaders] at h
  | succ n ih =>
    intro l cap acc k h
    simp only [parseHeaders] at h ⊢
    cases htl : takeLine l with
    | error o =>
      simp only [htl] at h
      cases o with
      | none => simp at h
      | some k' =>
        cases h
        simp only [takeLine_append_fail e l _ htl]
    | ok pr =>
      obtain ⟨line, rest⟩ := pr
      simp only [htl] at h
      simp only [takeLine_append_ok e l line rest htl]
      cases line with
      | nil => cases h
      | cons c cs =>
        cases hpl : parseHeaderLine (c :: cs) with
        | error k' =>
          simp only [hpl] at h ⊢
          exact h
        | ok hd =>
          simp only [hpl] at h ⊢
          by_cases hcap : acc.length < cap
          · simp only [if_pos hcap] at h ⊢
            exact ih _ _ _ _ h
          · simp only [if_neg hcap] at h ⊢
            exact h

/-- A successful header-block parse never returns more entries than the
capacity (spec §3: "the parser never writes past this capacity"). -/
theorem parseHeaders_count_le :
    ∀ (f : Nat) (l : List Char) (cap : Nat) (acc hs : List Header) (r : List Char),
      parseHeaders f l cap acc = .ok hs r → acc.length ≤ cap →
      hs.length ≤ cap := by
  intro f
  induction f with
  | zero => intro l cap acc hs r h _; simp [parseHeaders] at h
  | succ n ih =>
    intro l cap acc hs r h hacc
    simp only [parseHeaders] at h
    cases htl : takeLine l with
    | error o => simp only [htl] at h; cases o <;> simp at h
    | ok pr =>
      obtain ⟨line, rest⟩ := pr
      simp only [htl] at h
      cases line with
      | nil =>
        cases h
        simpa using hacc
      | cons c cs =>
        cases hpl : parseHeaderLine (c :: cs) with
        | error k => simp only [hpl] at h; cases h
        | ok hd =>
          simp only [hpl] at h
          by_cases hcap : acc.length < cap
          · simp only [if_pos hcap] at h
            exact ih _ _ _ _ _ h (by simp only [List.length_cons]; omega)
          · simp only [if_neg hcap] at h; cases h

/-- If a run with ample capacity finds more headers than a smaller capacity
`cap` allows, the run with capacity `cap` reports `TooManyHeaders`. -/
theorem parseHeaders_cap_exceeded :
    ∀ (f : Nat) (l : List Char) (bigcap cap : Nat) (acc hs : List Header) (r : List Char),
      parseHeaders f l bigcap acc = .ok hs r → acc.length ≤ cap → cap < hs.length →
      parseHeaders f l cap acc = .fail .TooManyHeaders := by
  intro f
  induction f with
  | zero => intro l bigcap cap acc hs r h _ _; simp [parseHeaders] at h
  | succ n ih =>
    intro l bigcap cap acc hs r h hacc hlt
    simp only [parseHeaders] at h ⊢
    cases htl : takeLine l with
    | error o => simp only [htl] at h; cases o <;> simp at h
    | ok pr =>
      obtain ⟨line, rest⟩ := pr
      simp only [htl] at h ⊢
      cases line with
      | nil =>
        cases h
        simp only [List.length_reverse] at hlt
        omega
      | cons c cs =>
        cases hpl : parseHeaderLine (c :: cs) with
        | error k => simp only [hpl] at h; cases h
        | ok hd =>
          simp only [hpl] at h ⊢
          by_cases hbig : acc.length < bigcap
          · simp only [if_pos hbig] at h
            by_cases hcap : acc.length < cap
            · simp only [if_pos hcap]
              exact ih _ _ _ _ _ _ h (by simp only [List.length_cons]; omega) hlt
            · simp only [if_neg hcap]
          · simp only [if_neg hbig] at h; cases h

/-! ## Lemmas about the full parser -/

/-- Inversion of a Complete result into its two stages. -/
theorem parse_request_complete_inv (input : List Char) (hint cap : Nat)
    (m p : List Char) (v : Nat) (hs : List Header) (c : Nat)
    (h : parse_request input hint cap = .Complete m p v hs c) :
    ∃ r rest, parseRequestLine input = .ok (m, p, v) r ∧
      parseHeaders (r.length + 1) r cap [] = .ok hs rest ∧
      c = input.length - rest.length := by
  unfold parse_request at h
  cases h1 : parseRequestLine input with
  | incomplete => rw [h1] at h; cases h
  | fail k => rw [h1] at h; cases h
  | ok mpv r =>
    obtain ⟨m1, p1, v1⟩ := mpv
    simp only [h1] at h
    cases h2 : parseHeaders (r.length + 1) r cap [] with
    | incomplete => simp only [h2] at h; cases h
    | fail k => simp only [h2] at h; cases h
    | ok hs1 rest =>
      simp only [h2] at h
      cases h
      exact ⟨r, rest, rfl, h2, rfl⟩

/-- Extending the input preserves a Complete result, payload included. -/
theorem parse_request_append_complete (e input : List Char) (hint cap : Nat)
    (m p : List Char) (v : Nat) (hs : List Header) (c : Nat)
    (h : parse_request input hint cap = .Complete m p v hs c) :
    parse_request (input ++ e) hint cap = .Complete m p v hs c := by
  obtain ⟨r, rest, h1, h2, rfl⟩ :=
    parse_request_complete_inv input hint cap m p v hs c h
  unfold parse_request
  simp only [parseRequestLine_append_ok e input m p v r h1]
  have h3 := parseHeaders_append_ok e _ r cap [] hs rest h2
  have h4 := parseHeaders_mono_ok _ _ _ _ _ _ ((r ++ e).length + 1) h3
    (by simp only [List.length_append]; omega)
  simp only [h4]
  have hlen : (input ++ e).length - (rest ++ e).length = input.length - rest.length := by
    simp only [List.length_append]
    omega
  rw [hlen]

/-- Extending the input preserves an Error result. -/
theorem parse_request_append_error (e input : List Char) (hint cap : Nat)
    (k : ErrorKind) (h : parse_request input hint cap = .Error k) :
    parse_request (input ++ e) hint cap = .Error k := by
  unfold parse_request at h ⊢
  cases h1 : parseRequestLine input with
  | incomplete => rw [h1] at h; cases h
  | fail k1 =>
    rw [h1] at h
    cases h
    simp only [parseRequestLine_append_fail e input _ h1]
  | ok mpv r =>
    obtain ⟨m1, p1, v1⟩ := mpv
    simp only [h1] at h
    simp only [parseRequestLine_append_ok e input m1 p1 v1 r h1]
    cases h2 : parseHeaders (r.length + 1) r cap [] with
    | incomplete => simp only [h2] at h; cases h
    | ok hs rest => simp only [h2] at h; cases h
    | fail k2 =>
      simp only [h2] at h
      cases h
      have h3 := parseHeaders_append_fail e _ r cap [] _ h2
      have h4 := parseHeaders_mono_fail _ _ _ _ _ ((r ++ e).length + 1) h3
        (by simp only [List.length_append]; omega)
      simp only [h4]

/-- Claim C3: for every valid complete request `R` (a buffer that parses
Complete consuming all of itself) and every proper prefix `P` of `R`,
`parse_request` on `P` returns Incomplete — never Error and never
Complete. -/
theorem proper_prefix_incomplete (R : List Char) (hint cap : Nat)
    (m p : List Char) (v : Nat) (hs : List Header)
    (hC : parse_request R hint cap = .Complete m p v hs R.length)
    (n : Nat) (hn : n < R.length) :
    parse_request (List.take n R) hint cap = .Incomplete := by
  have hsplit : List.take n R ++ List.drop n R = R := List.take_append_drop n R
  cases hres : parse_request (List.take n R) hint cap with
  | Incomplete => rfl
  | Error k =>
    have hext := parse_request_append_error (List.drop n R) _ hint cap k hres
    rw [hsplit] at hext
    rw [hext] at hC
    cases hC
  | Complete m' p' v' hs' c' =>
    obtain ⟨r, rest, _, _, hc'⟩ :=
      parse_request_complete_inv _ hint cap _ _ _ _ _ hres
    have hcle : c' ≤ n := by
      have : (List.take n R).length ≤ n := by
        rw [List.length_take]
        omega
      omega
    have hext := parse_request_append_complete (List.drop n R) _ hint cap _ _ _ _ _ hres
    rw [hsplit] at hext
    rw [hext] at hC
    injection hC with h1 h2 h3 h4 h5
    omega

/-- Witness for C3: a 10-byte proper prefix of the cookies request parses
Incomplete. -/
theorem proper_prefix_incomplete_witness :
    parse_request (List.take 10 c2input) 0 32 = .Incomplete :=
  proper_prefix_incomplete c2input 0 32 "GET".toList "/cookies".toList 1
    [⟨"Host".toList, "127.0.0.1:8090".toList⟩,
     ⟨"Connection".toList, "keep-alive".toList⟩]
    (by decide) 10 (by decide)

/-- Claim C6: a Complete result never carries more than the supplied
capacity of headers (no buffer over-write, no silent truncation), and if a
run with ample capacity shows the request has more header lines than a
capacity `cap` allows, parsing with capacity `cap` yields
`Error TooManyHeaders` — not Complete. -/
theorem too_many_headers_policy (input : List Char) (hint bigcap cap : Nat)
    (m p : List Char) (v : Nat) (hs : List Header) (c : Nat)
    (hbig : parse_request input hint bigcap = .Complete m p v hs c) :
    hs.length ≤ bigcap ∧
    (cap < hs.length → parse_request input hint cap = .Error .TooManyHeaders) := by
  obtain ⟨r, rest, h1, h2, hc⟩ :=
    parse_request_complete_inv input hint bigcap m p v hs c hbig
  constructor
  · exact parseHeaders_count_le _ _ _ _ _ _ h2 (by simp)
  · intro hlt
    have h3 := parseHeaders_cap_exceeded _ _ _ cap _ _ _ h2 (by simp) hlt
    unfold parse_request
    simp only [h1, h3]

/-- Witness for C6: a request with two headers against capacities 32
and 1. -/
theorem too_many_headers_policy_witness :
    ([⟨"A".toList, "1".toList⟩, ⟨"B".toList, "2".toList⟩] : List Header).length ≤ 32 ∧
    (1 < ([⟨"A".toList, "1".toList⟩, ⟨"B".toList, "2".toList⟩] : List Header).length →
      parse_request ("GET / HTTP/1.1\r\nA: 1\r\nB: 2\r\n\r\n".toList) 0 1 =
        .Error .TooManyHeaders) :=
  too_many_headers_policy ("GET / HTTP/1.1\r\nA: 1\r\nB: 2\r\n\r\n".toList) 0 32 1
    "GET".toList "/".toList 1
    [⟨"A".toList, "1".toList⟩, ⟨"B".toList, "2".toList⟩] 30 (by decide)

/-! ## Lemmas about CRLF-to-LF rewriting (claim C7) -/

/-- `stripCRLF` leaves a non-CR head byte in place. -/
theorem stripCRLF_cons_ne (c : Char) (cs : List Char) (h : (c == '\r') = false) :
    stripCRLF (c :: cs) = c :: stripCRLF cs := by
  cases cs with
  | nil => rfl
  | cons d ds => simp [stripCRLF, h]

/-- `stripCRLF` rewrites a leading CRLF pair to LF. -/
theorem stripCRLF_crlf (rest : List Char) :
    stripCRLF ('\r' :: '\n' :: rest) = '\n' :: stripCRLF rest := by
  simp [stripCRLF]

/-- Rewriting CRLF to LF never lengthens the buffer. -/
theorem stripCRLF_length : ∀ (l : List Char), (stripCRLF l).length ≤ l.length := by
  intro l
  induction l using stripCRLF.induct with
  | case1 => simp [stripCRLF]
  | case2 c => simp [stripCRLF]
  | case3 c d rest hcd ih =>
    rw [stripCRLF]
    simp only [hcd, if_true, List.length_cons]
    omega
  | case4 c d rest hcd ih =>
    rw [stripCRLF]
    simp only [hcd, Bool.false_eq_true, if_false, List.length_cons]
    simp only [List.length_cons] at ih
    omega

/-- Stripping CRLF pairs preserves an extracted line and rewrites the
remainder: the line itself contains no CR, and its terminator maps to a
bare LF. -/
theorem takeLine_strip :
    ∀ (l line rest : List Char), takeLine l = .ok (line, rest) →
      takeLine (stripCRLF l) = .ok (line, stripCRLF rest) := by
  intro l
  induction l with
  | nil => intro line rest h; simp [takeLine] at h
  | cons c cs ih =>
    intro line rest h
    simp only [takeLine] at h
    cases hcr : c == '\r' with
    | true =>
      have hc := eq_of_beq hcr
      subst hc
      simp only [hcr, if_true] at h
      cases cs with
      | nil => simp at h
      | cons d ds =>
        cases hdn : d == '\n' with
        | true =>
          have hdc := eq_of_beq hdn
          subst hdc
          simp only [hdn, if_true] at h
          cases h
          rw [stripCRLF_crlf]
          simp [takeLine]
        | false => simp [hdn] at h
    | false =>
      simp only [hcr, Bool.false_eq_true, if_false] at h
      rw [stripCRLF_cons_ne c cs hcr]
      cases hcn : c == '\n' with
      | true =>
        simp only [hcn, if_true] at h
        cases h
        simp only [takeLine, hcr, Bool.false_eq_true, if_false, hcn, if_true]
      | false =>
        simp only [hcn, Bool.false_eq_true, if_false] at h
        cases hv : isValueChar c with
        | true =>
          simp only [hv, if_true] at h
          cases hrec : takeLine cs with
          | error k => rw [hrec] at h; cases h
          | ok pr =>
            obtain ⟨line', rest'⟩ := pr
            rw [hrec] at h
            cases h
            simp only [takeLine, hcr, Bool.false_eq_true, if_false, hcn, hv, if_true]
            rw [ih _ _ hrec]
        | false => simp [hv] at h

/-- Stripping CRLF pairs preserves a matched line end. -/
theorem expectLineEnd_strip (k : ErrorKind) :
    ∀ (l rest : List Char), expectLineEnd k l = .ok () rest →
      expectLineEnd k (stripCRLF l) = .ok () (stripCRLF rest) := by
  intro l rest h
  cases l with
  | nil => simp [expectLineEnd] at h
  | cons c cs =>
    simp only [expectLineEnd] at h
    cases hcr : c == '\r' with
    | true =>
      have hc := eq_of_beq hcr
      subst hc
      simp only [hcr, if_true] at h
      cases cs with
      | nil => simp at h
      | cons d ds =>
        cases hdn : d == '\n' with
        | true =>
          have hdc := eq_of_beq hdn
          subst hdc
          simp only [hdn, if_true] at h
          cases h
          rw [stripCRLF_crlf]
          simp [expectLineEnd]
        | false => simp [hdn] at h
    | false =>
      simp only [hcr, Bool.false_eq_true, if_false] at h
      rw [stripCRLF_cons_ne c cs hcr]
      cases hcn : c == '\n' with
      | true =>
        simp only [hcn, if_true] at h
        cases h
        simp only [expectLineEnd, hcr, Bool.false_eq_true, if_false, hcn, if_true]
      | false => simp [hcn] at h

/-- Stripping CRLF pairs preserves a scanned token when the scanner rejects
CR (both the token and the terminating space are unaffected). -/
theorem scanToken_strip (valid : Char → Bool) (k : ErrorKind)
    (hvr : valid '\r' = false) :
    ∀ (l tok rest : List Char), scanToken valid k l = .ok tok rest →
      scanToken valid k (stripCRLF l) = .ok tok (stripCRLF rest) := by
  intro l
  induction l with
  | nil => intro tok rest h; simp [scanToken] at h
  | cons c cs ih =>
    intro tok rest h
    simp only [scanToken] at h
    have hccr : (c == '\r') = false := by
      cases hc : c == '\r' with
      | true =>
        have := eq_of_beq hc
        subst this
        cases hsp : ('\r' == ' ') with
        | true => simp at hsp
        | false =>
          rw [hsp] at h
          simp only [Bool.false_eq_true, if_false, hvr] at h
          simp at h
      | false => rfl
    rw [stripCRLF_cons_ne c cs hccr]
    simp only [scanToken]
    cases hsp : c == ' ' with
    | true =>
      simp only [hsp, if_true] at h ⊢
      cases h
      rfl
    | false =>
      simp only [hsp, Bool.false_eq_true, if_false] at h ⊢
      cases hv : valid c with
      | true =>
        simp only [hv, if_true] at h ⊢
        cases hrec : scanToken valid k cs with
        | ok t r =>
          rw [hrec] at h
          cases h
          rw [ih _ _ hrec]
        | incomplete => rw [hrec] at h; cases h
        | fail e' => rw [hrec] at h; cases h
      | false => simp [hv] at h

/-- Stripping CRLF pairs preserves a matched literal that contains no CR. -/
theorem expectLit_strip (k : ErrorKind) :
    ∀ (lit : List Char), (∀ c ∈ lit, (c == '\r') = false) →
      ∀ (l rest : List Char), expectLit k lit l = .ok () rest →
        expectLit k lit (stripCRLF l) = .ok () (stripCRLF rest) := by
  intro lit
  induction lit with
  | nil =>
    intro _ l rest h
    simp only [expectLit] at h ⊢
    cases h
    rfl
  | cons x xs ih =>
    intro hno l rest h
    cases l with
    | nil => simp [expectLit] at h
    | cons c cs =>
      simp only [expectLit] at h
      cases hcx : c == x with
      | true =>
        have hc := eq_of_beq hcx
        subst hc
        rw [stripCRLF_cons_ne c cs (hno c (List.mem_cons_self c xs))]
        simp only [expectLit, hcx, if_true] at h ⊢
        exact ih (fun d hd => hno d (List.mem_cons_of_mem c hd)) _ _ h
      | false => simp [hcx] at h

/-- A digit byte is not CR. -/
theorem isDigitChar_not_cr (d : Char) (h : isDigitChar d = true) :
    (d == '\r') = false := by
  cases hc : d == '\r' with
  | true =>
    have := eq_of_beq hc
    subst this
    simp [isDigitChar] at h
  | false => rfl

/-- Stripping CRLF pairs preserves a parsed request line. -/
theorem parseRequestLine_strip (input : List Char) (m p : List Char) (v : Nat)
    (r : List Char) (h : parseRequestLine input = .ok (m, p, v) r) :
    parseRequestLine (stripCRLF input) = .ok (m, p, v) (stripCRLF r) := by
  unfold parseRequestLine at h ⊢
  cases h1 : scanToken isTokenChar .InvalidMethod input with
  | incomplete => rw [h1] at h; cases h
  | fail k => rw [h1] at h; cases h
  | ok m1 r1 =>
    simp only [h1] at h
    simp only [scanToken_strip isTokenChar .InvalidMethod (by decide) _ _ _ h1]
    cases hm1 : m1.isEmpty with
    | true => simp only [hm1, if_true] at h; cases h
    | false =>
      simp only [hm1, Bool.false_eq_true, if_false] at h ⊢
      cases h2 : scanToken isPathChar .InvalidPath r1 with
      | incomplete => rw [h2] at h; cases h
      | fail k => rw [h2] at h; cases h
      | ok p1 r2 =>
        simp only [h2] at h
        simp only [scanToken_strip isPathChar .InvalidPath (by decide) _ _ _ h2]
        cases hp1 : p1.isEmpty with
        | true => simp only [hp1, if_true] at h; cases h
        | false =>
          simp only [hp1, Bool.false_eq_true, if_false] at h ⊢
          cases h3 : expectLit .InvalidVersion ("HTTP/1.".toList) r2 with
          | incomplete => rw [h3] at h; cases h
          | fail k => rw [h3] at h; cases h
          | ok u r3 =>
            cases u
            simp only [h3] at h
            simp only [expectLit_strip .InvalidVersion ("HTTP/1.".toList) (by decide) _ _ h3]
            cases r3 with
            | nil => cases h
            | cons d r4 =>
              cases hd : isDigitChar d with
              | true =>
                simp only [hd, if_true] at h
                rw [stripCRLF_cons_ne d r4 (isDigitChar_not_cr d hd)]
                simp only [hd, if_true]
                cases h4 : expectLineEnd .InvalidVersion r4 with
                | incomplete => rw [h4] at h; cases h
                | fail k => rw [h4] at h; cases h
                | ok u2 r5 =>
                  cases u2
                  simp only [h4] at h
                  simp only [expectLineEnd_strip .InvalidVersion _ _ h4]
                  cases h
                  rfl
              | false => simp [hd] at h

/-- Stripping CRLF pairs preserves a successful header-block parse, entry
for entry, at the same fuel. -/
theorem parseHeaders_strip :
    ∀ (f : Nat) (l : List Char) (cap : Nat) (acc hs : List Header) (r : List Char),
      parseHeaders f l cap acc = .ok hs r →
      parseHeaders f (stripCRLF l) cap acc = .ok hs (stripCRLF r) := by
  intro f
  induction f with
  | zero => intro l cap acc hs r h; simp [parseHeaders] at h
  | succ n ih =>
    intro l cap acc hs r h
    simp only [parseHeaders] at h ⊢
    cases htl : takeLine l with
    | error o => simp only [htl] at h; cases o <;> simp at h
    | ok pr =>
      obtain ⟨line, rest⟩ := pr
      simp only [htl] at h
      simp only [takeLine_strip l line rest htl]
      cases line with
      | nil =>
        cases h
        rfl
      | cons c cs =>
        cases hpl : parseHeaderLine (c :: cs) with
        | error k => simp only [hpl] at h; cases h
        | ok hd =>
          simp only [hpl] at h ⊢
          by_cases hcap : acc.length < cap
          · simp only [if_pos hcap] at h ⊢
            exact ih _ _ _ _ _ h
          · simp only [if_neg hcap] at h; cases h

/-- Claim C7: a valid CRLF-terminated complete request parses identically —
same method, path, minor version and header contents — after every CRLF
terminator is replaced by a bare LF; the rewritten request is again fully
consumed. -/
theorem bare_lf_parses_identically (R : List Char) (hint cap : Nat)
    (m p : List Char) (v : Nat) (hs : List Header)
    (hC : parse_request R hint cap = .Complete m p v hs R.length) :
    parse_request (stripCRLF R) hint cap =
      .Complete m p v hs (stripCRLF R).length := by
  obtain ⟨r, rest, h1, h2, hc⟩ :=
    parse_request_complete_inv R hint cap m p v hs _ hC
  have hRne : R.length ≠ 0 := by
    intro h0
    have hnil : R = [] := List.eq_nil_of_length_eq_zero h0
    subst hnil
    rw [show parse_request [] hint cap = .Incomplete from rfl] at hC
    cases hC
  have hrest : rest = [] := by
    have hsub : R.length - rest.length = R.length := hc.symm
    have : rest.length = 0 := by omega
    exact List.eq_nil_of_length_eq_zero this
  subst hrest
  have h1' := parseRequestLine_strip R m p v r h1
  have h2' := parseHeaders_strip (r.length + 1) r cap [] hs [] h2
  have h2'' : parseHeaders ((stripCRLF r).length + 1) (stripCRLF r) cap [] =
      .ok hs (stripCRLF []) := by
    rw [← parseHeaders_fuel_eq (r.length + 1) (stripCRLF r) ((stripCRLF r).length + 1) cap []
      (by have := stripCRLF_length r; omega) (by omega)]
    exact h2'
  unfold parse_request
  simp only [h1', h2'']
  rfl

/-- Witness for C7: the cookies request with bare-LF terminators. -/
theorem bare_lf_parses_identically_witness :
    parse_request (stripCRLF c2input) 0 32 =
      .Complete "GET".toList "/cookies".toList 1
        [⟨"Host".toList, "127.0.0.1:8090".toList⟩,
         ⟨"Connection".toList, "keep-alive".toList⟩]
        (stripCRLF c2input).length :=
  bare_lf_parses_identically c2input 0 32 "GET".toList "/cookies".toList 1
    [⟨"Host".toList, "127.0.0.1:8090".toList⟩,
     ⟨"Connection".toList, "keep-alive".toList⟩]
    (by decide)

/-- Claim C5: a request that is otherwise well formed and carries version
token `HTTP/1.<d>` for any ASCII digit `d` — in particular digits greater
than 1 — is not rejected: it parses Complete and reports `d`'s numeric
value as the minor version unchanged. -/
theorem minor_version_digit_reported (m p : List Char) (d : Char)
    (rest : List Char) (hint cap : Nat) (hs : List Header) (r : List Char)
    (hm : m ≠ []) (hmc : ∀ c ∈ m, isTokenChar c = true)
    (hp : p ≠ []) (hpc : ∀ c ∈ p, isPathChar c = true)
    (hd : isDigitChar d = true)
    (hH : parseHeaders (rest.length + 1) rest cap [] = .ok hs r) :
    parse_request
        (m ++ (' ' :: (p ++ (' ' :: ("HTTP/1.".toList ++ (d :: '\r' :: '\n' :: rest)))))) hint cap
      = .Complete m p (d.toNat - 0x30) hs
          ((m ++ (' ' :: (p ++ (' ' :: ("HTTP/1.".toList ++ (d :: '\r' :: '\n' :: rest)))))).length
            - r.length) := by
  unfold parse_request
  simp only [parseRequestLine_exact m p d rest hm hmc hp hpc hd]
  simp only [hH]

/-- Witness for C5: `GET / HTTP/1.2` followed by an empty header block. -/
theorem minor_version_digit_reported_witness :
    parse_request
        ("GET".toList ++ (' ' :: ("/".toList ++ (' ' :: ("HTTP/1.".toList ++ ('2' :: '\r' :: '\n' :: "\r\n".toList)))))) 0 32
      = .Complete "GET".toList "/".toList ('2'.toNat - 0x30) []
          (("GET".toList ++ (' ' :: ("/".toList ++ (' ' :: ("HTTP/1.".toList ++ ('2' :: '\r' :: '\n' :: "\r\n".toList)))))).length
            - ([] : List Char).length) :=
  minor_version_digit_reported "GET".toList "/".toList '2' ("\r\n".toList) 0 32 [] []
    (by decide) (by decide) (by decide) (by decide) (by decide) (by decide)

/-! ## Lemmas for the folded-continuation claim (C8) -/

/-- A value byte is not CR. -/
theorem isValueChar_not_cr (c : Char) (h : isValueChar c = true) :
    (c == '\r') = false := by
  cases hc : c == '\r' with
  | true =>
    have := eq_of_beq hc
    subst this
    simp [isValueChar] at h
  | false => rfl

/-- A value byte is not LF. -/
theorem isValueChar_not_lf (c : Char) (h : isValueChar c = true) :
    (c == '\n') = false := by
  cases hc : c == '\n' with
  | true =>
    have := eq_of_beq hc
    subst this
    simp [isValueChar] at h
  | false => rfl

/-- A line of value bytes followed by CRLF extracts to exactly that line. -/
theorem takeLine_exact :
    ∀ (line rest : List Char), (∀ c ∈ line, isValueChar c = true) →
      takeLine (line ++ ('\r' :: '\n' :: rest)) = .ok (line, rest) := by
  intro line
  induction line with
  | nil => intro rest _; simp [takeLine]
  | cons c cs ih =>
    intro rest hv
    have hvc := hv c (List.mem_cons_self c cs)
    have hcr := isValueChar_not_cr c hvc
    have hcn := isValueChar_not_lf c hvc
    simp only [List.cons_append, takeLine, hcr, Bool.false_eq_true, if_false, hcn, hvc,
      if_true, List.append_eq]
    rw [ih rest fun d hd => hv d (List.mem_cons_of_mem c hd)]

/-- The header block `A: b`, then a folded continuation line `␣w`, then the
blank line, parses to the named entry followed by a separate entry with
empty name and the trimmed continuation as value. -/
theorem headerblock_fold_aux (w : List Char)
    (hw : ∀ c ∈ w, isValueChar c = true) (hne : trim (' ' :: w) ≠ []) (k : Nat) :
    parseHeaders (k + 1 + 1 + 1)
        ('A' :: ':' :: ' ' :: 'b' :: '\r' :: '\n' ::
          ' ' :: (w ++ ('\r' :: '\n' :: '\r' :: '\n' :: ([] : List Char)))) 32 []
      = .ok [⟨"A".toList, "b".toList⟩, ⟨[], trim (' ' :: w)⟩] [] := by
  have h1 := takeLine_exact ('A' :: ':' :: ' ' :: 'b' :: ([] : List Char))
    (' ' :: (w ++ ('\r' :: '\n' :: '\r' :: '\n' :: ([] : List Char)))) (by decide)
  simp only [List.cons_append, List.nil_append] at h1
  have h2 := takeLine_exact (' ' :: w) ('\r' :: '\n' :: ([] : List Char))
    (by
      intro c hc
      rcases List.mem_cons.mp hc with h | h
      · subst h; decide
      · exact hw c h)
  simp only [List.cons_append] at h2
  have h3 : takeLine ('\r' :: '\n' :: ([] : List Char)) = .ok ([], []) := rfl
  have hA : parseHeaderLine ('A' :: ':' :: ' ' :: 'b' :: ([] : List Char)) =
      .ok ⟨"A".toList, "b".toList⟩ := rfl
  have hemp : (trim (' ' :: w)).isEmpty = false := by
    cases htr : trim (' ' :: w) with
    | nil => exact absurd htr hne
    | cons a as => rfl
  have hF : parseHeaderLine (' ' :: w) = .ok ⟨[], trim (' ' :: w)⟩ := by
    simp only [parseHeaderLine]
    simp only [show isHWS ' ' = true from rfl, if_true]
    simp only [hemp, Bool.false_eq_true, if_false]
  simp +decide [parseHeaders, h1, h2, h3, hA, hF]

/-- Claim C8: a header line beginning with horizontal whitespace after a
previous header line yields its own entry with empty name and the
continuation bytes trimmed of surrounding whitespace as value; the previous
entry (`A: b`) is left intact — the continuation is never concatenated onto
it. -/
theorem folded_continuation_separate_entry (w : List Char)
    (hw : ∀ c ∈ w, isValueChar c = true) (hne : trim (' ' :: w) ≠ []) :
    parse_request ("GET / HTTP/1.1\r\nA: b\r\n ".toList ++ (w ++ "\r\n\r\n".toList)) 0 32
      = .Complete "GET".toList "/".toList 1
          [⟨"A".toList, "b".toList⟩, ⟨[], trim (' ' :: w)⟩]
          (("GET / HTTP/1.1\r\nA: b\r\n ".toList ++ (w ++ "\r\n\r\n".toList)).length) := by
  show parse_request
      ("GET".toList ++ (' ' :: ("/".toList ++ (' ' :: ("HTTP/1.".toList ++
        ('1' :: '\r' :: '\n' ::
          ('A' :: ':' :: ' ' :: 'b' :: '\r' :: '\n' ::
            ' ' :: (w ++ ('\r' :: '\n' :: '\r' :: '\n' :: ([] : List Char)))))))))) 0 32
    = _
  unfold parse_request
  simp only [parseRequestLine_exact "GET".toList "/".toList '1'
    ('A' :: ':' :: ' ' :: 'b' :: '\r' :: '\n' ::
      ' ' :: (w ++ ('\r' :: '\n' :: '\r' :: '\n' :: ([] : List Char))))
    (by decide) (by decide) (by decide) (by decide) (by decide)]
  have haux := headerblock_fold_aux w hw hne 0
  have hmono := parseHeaders_mono_ok _ _ _ _ _ _
    (('A' :: ':' :: ' ' :: 'b' :: '\r' :: '\n' ::
      ' ' :: (w ++ ('\r' :: '\n' :: '\r' :: '\n' :: ([] : List Char)))).length + 1) haux
    (by simp only [List.length_cons, List.length_append]; omega)
  simp only [hmono]
  simp only [List.length_nil, Nat.sub_zero]
  rfl

/-- Witness for C8: continuation bytes `do`. -/
theorem folded_continuation_separate_entry_witness :
    parse_request ("GET / HTTP/1.1\r\nA: b\r\n ".toList ++ ("do".toList ++ "\r\n\r\n".toList)) 0 32
      = .Complete "GET".toList "/".toList 1
          [⟨"A".toList, "b".toList⟩, ⟨[], trim (' ' :: "do".toList)⟩]
          (("GET / HTTP/1.1\r\nA: b\r\n ".toList ++ ("do".toList ++ "\r\n\r\n".toList)).length) :=
  folded_continuation_separate_entry ("do".toList) (by decide) (by decide)

end HParse
